import Mathlib

/-!
Verification of the edge-relay decryption core of `space-data-network`.

The embedding follows `src/sdn-js/src/wasm-src/edge-relays.cpp` and
`src/demo/demo.c`. Machine words are modelled as `Nat` reduced modulo
`2^32` where the C code relies on `uint32_t` wraparound; byte buffers
are `List Nat` with each byte below 256.
-/

/-- 32-bit wrapping addition, as performed on `uint32_t` values. -/
def add32 (a b : Nat) : Nat := (a + b) % 4294967296

/-- Bitwise XOR; on inputs below `2^32` the result stays below `2^32`. -/
def xor32 (a b : Nat) : Nat := a ^^^ b

/-- 32-bit left rotation `(x << n) | (x >> (32 - n))` on a `uint32_t`. -/
def rotl32 (x n : Nat) : Nat := ((x <<< n) ||| (x >>> (32 - n))) % 4294967296

/-- The ChaCha quarter round: the C macro `QUARTERROUND(a,b,c,d)` of
`edge-relays.cpp`, acting on four 32-bit words. -/
def quarterRound (a b c d : Nat) : Nat × Nat × Nat × Nat :=
  let a := add32 a b
  let d := rotl32 (xor32 d a) 16
  let c := add32 c d
  let b := rotl32 (xor32 b c) 12
  let a := add32 a b
  let d := rotl32 (xor32 d a) 8
  let c := add32 c d
  let b := rotl32 (xor32 b c) 7
  (a, b, c, d)

/-- One `QUARTERROUND(output[i1], output[i2], output[i3], output[i4])`
invocation on the 16-word state held as a list. -/
def qround (s : List Nat) (i1 i2 i3 i4 : Nat) : List Nat :=
  let r := quarterRound (s.getD i1 0) (s.getD i2 0) (s.getD i3 0) (s.getD i4 0)
  (((s.set i1 r.1).set i2 r.2.1).set i3 r.2.2.1).set i4 r.2.2.2

/-- One iteration of the round loop in `chacha20_block`: the four column
quarter rounds followed by the four diagonal quarter rounds. -/
def doubleRound (s : List Nat) : List Nat :=
  qround (qround (qround (qround
    (qround (qround (qround (qround s 0 4 8 12) 1 5 9 13) 2 6 10 14) 3 7 11 15)
    0 5 10 15) 1 6 11 12) 2 7 8 13) 3 4 9 14

/-- `chacha20_block` of `edge-relays.cpp`: copy the input state, run the
round loop 10 times, then add the input state word-wise (feed-forward). -/
def chacha20_block (input : List Nat) : List Nat :=
  List.zipWith add32 (Nat.iterate doubleRound 10 input) input

/-- A 16-word cipher state with named words, used by the reference
(specification-side) description of the block function. -/
structure SpecState where
  y0 : Nat
  y1 : Nat
  y2 : Nat
  y3 : Nat
  y4 : Nat
  y5 : Nat
  y6 : Nat
  y7 : Nat
  y8 : Nat
  y9 : Nat
  y10 : Nat
  y11 : Nat
  y12 : Nat
  y13 : Nat
  y14 : Nat
  y15 : Nat

/-- The 16 words of a `SpecState` in order. -/
def SpecState.toList (s : SpecState) : List Nat :=
  [s.y0, s.y1, s.y2, s.y3, s.y4, s.y5, s.y6, s.y7,
   s.y8, s.y9, s.y10, s.y11, s.y12, s.y13, s.y14, s.y15]

/-- Modelled from the spec: the column quarter-round on words (0,4,8,12). -/
def specQRa (s : SpecState) : SpecState :=
  let r := quarterRound s.y0 s.y4 s.y8 s.y12
  { s with y0 := r.1, y4 := r.2.1, y8 := r.2.2.1, y12 := r.2.2.2 }

/-- Modelled from the spec: the column quarter-round on words (1,5,9,13). -/
def specQRb (s : SpecState) : SpecState :=
  let r := quarterRound s.y1 s.y5 s.y9 s.y13
  { s with y1 := r.1, y5 := r.2.1, y9 := r.2.2.1, y13 := r.2.2.2 }

/-- Modelled from the spec: the column quarter-round on words (2,6,10,14). -/
def specQRc (s : SpecState) : SpecState :=
  let r := quarterRound s.y2 s.y6 s.y10 s.y14
  { s with y2 := r.1, y6 := r.2.1, y10 := r.2.2.1, y14 := r.2.2.2 }

/-- Modelled from the spec: the column quarter-round on words (3,7,11,15). -/
def specQRd (s : SpecState) : SpecState :=
  let r := quarterRound s.y3 s.y7 s.y11 s.y15
  { s with y3 := r.1, y7 := r.2.1, y11 := r.2.2.1, y15 := r.2.2.2 }

/-- Modelled from the spec: the diagonal quarter-round on words (0,5,10,15). -/
def specQRe (s : SpecState) : SpecState :=
  let r := quarterRound s.y0 s.y5 s.y10 s.y15
  { s with y0 := r.1, y5 := r.2.1, y10 := r.2.2.1, y15 := r.2.2.2 }

/-- Modelled from the spec: the diagonal quarter-round on words (1,6,11,12). -/
def specQRf (s : SpecState) : SpecState :=
  let r := quarterRound s.y1 s.y6 s.y11 s.y12
  { s with y1 := r.1, y6 := r.2.1, y11 := r.2.2.1, y12 := r.2.2.2 }

/-- Modelled from the spec: the diagonal quarter-round on words (2,7,8,13). -/
def specQRg (s : SpecState) : SpecState :=
  let r := quarterRound s.y2 s.y7 s.y8 s.y13
  { s with y2 := r.1, y7 := r.2.1, y8 := r.2.2.1, y13 := r.2.2.2 }

/-- Modelled from the spec: the diagonal quarter-round on words (3,4,9,14). -/
def specQRh (s : SpecState) : SpecState :=
  let r := quarterRound s.y3 s.y4 s.y9 s.y14
  { s with y3 := r.1, y4 := r.2.1, y9 := r.2.2.1, y14 := r.2.2.2 }

/-- Modelled from the spec: the four "column" quarter-rounds of a double
round, over word groups (0,4,8,12), (1,5,9,13), (2,6,10,14), (3,7,11,15). -/
def specColumnRound (s : SpecState) : SpecState :=
  specQRd (specQRc (specQRb (specQRa s)))

/-- Modelled from the spec: the four "diagonal" quarter-rounds of a double
round, over word groups (0,5,10,15), (1,6,11,12), (2,7,8,13), (3,4,9,14). -/
def specDiagonalRound (s : SpecState) : SpecState :=
  specQRh (specQRg (specQRf (specQRe s)))

/-- Modelled from the spec: one double round — columns then diagonals. -/
def specDoubleRound (s : SpecState) : SpecState :=
  specDiagonalRound (specColumnRound s)

/-- Modelled from the spec: word-wise wrapping addition of two states
(the feed-forward step). -/
def specAddState (a b : SpecState) : SpecState :=
  ⟨add32 a.y0 b.y0, add32 a.y1 b.y1, add32 a.y2 b.y2, add32 a.y3 b.y3,
   add32 a.y4 b.y4, add32 a.y5 b.y5, add32 a.y6 b.y6, add32 a.y7 b.y7,
   add32 a.y8 b.y8, add32 a.y9 b.y9, add32 a.y10 b.y10, add32 a.y11 b.y11,
   add32 a.y12 b.y12, add32 a.y13 b.y13, add32 a.y14 b.y14, add32 a.y15 b.y15⟩

/-- Modelled from the spec: the reference keystream block function —
10 double rounds followed by word-wise addition of the input state. -/
def specChaChaBlock (s : SpecState) : SpecState :=
  specAddState (Nat.iterate specDoubleRound 10 s) s

/-- Assemble a little-endian 32-bit word from four bytes. -/
def bytesToWord (b0 b1 b2 b3 : Nat) : Nat :=
  b0 + b1 * 256 + b2 * 65536 + b3 * 16777216

/-- Reinterpret a byte buffer as little-endian 32-bit words
(the `memcpy` into the `uint32_t` state on the little-endian WASM target). -/
def bytesToWords : List Nat → List Nat
  | b0 :: b1 :: b2 :: b3 :: rest => bytesToWord b0 b1 b2 b3 :: bytesToWords rest
  | _ => []

/-- Serialize one 32-bit word to four little-endian bytes. -/
def wordToBytes (w : Nat) : List Nat :=
  [w % 256, w / 256 % 256, w / 65536 % 256, w / 16777216 % 256]

/-- Serialize a word list to bytes (`(uint8_t*)keystream` reinterpretation). -/
def wordsToBytes : List Nat → List Nat
  | [] => []
  | w :: rest => wordToBytes w ++ wordsToBytes rest

/-- The initial cipher state of `chacha20_decrypt`: four constant words,
eight key words (`memcpy(&state[4], key, 32)`), the block counter in
word 12, zero in word 13, and two nonce words
(`memcpy(&state[14], nonce, 8)`). -/
def chachaInit (key nonce : List Nat) (counter : Nat) : List Nat :=
  [0x61707865, 0x3320646e, 0x79622d32, 0x6b206574] ++
    bytesToWords key ++ [counter, 0] ++ bytesToWords nonce

/-- The 64 keystream bytes produced for one block-counter value. -/
def keystreamBytes (key nonce : List Nat) (counter : Nat) : List Nat :=
  wordsToBytes (chacha20_block (chachaInit key nonce counter))

/-- The block loop of `chacha20_decrypt`: `state[12]++` precedes every
keystream generation, so with the counter entering at `c` the next chunk
is XORed against the keystream for counter `c + 1`. The `fuel` argument
only bounds the number of iterations (the loop runs at most
`ceil(len / 64) ≤ len` times); every call supplies `fuel ≥ p.length`. -/
def chachaGo (key nonce : List Nat) : Nat → Nat → List Nat → List Nat
  | 0, _, _ => []
  | fuel + 1, c, p =>
    if p = [] then []
    else
      List.zipWith xor32 (p.take 64) (keystreamBytes key nonce (c + 1)) ++
        chachaGo key nonce fuel (c + 1) (p.drop 64)

/-- `chacha20_decrypt` of `edge-relays.cpp`: the counter word starts at 0
and is incremented before each block. -/
def chacha20_decrypt (key nonce input : List Nat) : List Nat :=
  chachaGo key nonce input.length 0 input

/-- The key-deobfuscation loop of `get_edge_relays`:
`key[i] = KEY_MATERIAL[i] ^ KEY_MATERIAL[32 + i]` for `i < 32`. -/
def deobfuscateKey (material : List Nat) : List Nat :=
  (List.range 32).map fun i => material.getD i 0 ^^^ material.getD (32 + i) 0

/-- The ciphertext slice consumed by `get_edge_relays`: the blob after the
24-byte nonce field, stopping 16 tag bytes before the end
(`ciphertext_len = ENCRYPTED_RELAYS_LEN - 24 - 16`). -/
def ciphertextOf (blob : List Nat) : List Nat :=
  (blob.drop 24).take (blob.length - 40)

/-- The raw decryption performed by `get_edge_relays`: deobfuscate the key,
take the first 8 blob bytes as the nonce actually consumed
(`chacha20_decrypt(..., key, ENCRYPTED_RELAYS)` copies only 8 bytes),
and decrypt the ciphertext slice. -/
def decryptPayload (material blob : List Nat) : List Nat :=
  chacha20_decrypt (deobfuscateKey material) (blob.take 8) (ciphertextOf blob)

/-- Semantics of `std::string((char*)buf)`: the bytes before the first
zero byte. -/
def cStringBytes (buf : List Nat) : List Nat :=
  buf.takeWhile fun b => b != 0

/-- The text stored in `cached_result` by the first successful run of
`get_edge_relays`: the decrypted buffer with a zero byte appended
(`decrypted[ciphertext_len] = 0`), read back as a C string. -/
def get_edge_relays_payload (material blob : List Nat) : List Nat :=
  cStringBytes (decryptPayload material blob ++ [0])

/-- The process-wide state of the module: the `cached_result` string
(empty meaning "not yet computed") plus an instrumentation counter for
how many times the deobfuscate-decrypt pipeline has run. -/
structure EdgeState where
  cached : List Nat
  decryptCalls : Nat
deriving DecidableEq

/-- One call to `get_edge_relays`: if `cached_result` is non-empty return
it, otherwise run the pipeline, store the result and return it. -/
def get_edge_relays (material blob : List Nat) (s : EdgeState) :
    List Nat × EdgeState :=
  if s.cached ≠ [] then (s.cached, s)
  else
    let p := get_edge_relays_payload material blob
    (p, ⟨p, s.decryptCalls + 1⟩)

/-- A fresh process: empty cache, pipeline never run. -/
def initState : EdgeState := ⟨[], 0⟩

/-- `n` successive calls to `get_edge_relays` from a fresh process,
returning the final state and the list of returned texts in call order. -/
def runCalls (material blob : List Nat) : Nat → EdgeState × List (List Nat)
  | 0 => (initState, [])
  | n + 1 =>
    let r := runCalls material blob n
    let c := get_edge_relays material blob r.1
    (c.2, r.2 ++ [c.1])

/-- The scanning loop of `get_relay_count`, over the remaining characters
with the current `slashes` and `count` values. -/
def relayCountLoop : List Nat → Nat → Nat → Nat
  | [], _, count => count
  | ch :: rest, slashes, count =>
    let slashes2 := if ch = 47 then slashes + 1 else slashes
    if ch = 34 ∧ 0 < slashes2 then relayCountLoop rest 0 (count + 1)
    else relayCountLoop rest slashes2 count

/-- `get_relay_count` of `edge-relays.cpp`, as a function of the scanned
text (the code applies it to the cached payload). -/
def get_relay_count (text : List Nat) : Nat :=
  relayCountLoop text 0 0

/-- Signed 64-bit two's-complement wraparound, modelling `int64_t`
arithmetic in `demo.c`. -/
def wrap64 (x : Int) : Int :=
  (x + 9223372036854775808) % 18446744073709551616 - 9223372036854775808

/-- `demo_factorial` of `demo.c`: `-1` for negative input, otherwise the
loop `for (i = 2; i <= n; i++) result *= i` on an `int64_t` accumulator. -/
def demo_factorial (n : Int) : Int :=
  if n < 0 then -1
  else (List.range' 2 (n.toNat - 1)).foldl (fun r i => wrap64 (r * (i : Int))) 1

example : demo_factorial 5 = 120 := by decide
example : demo_factorial 0 = 1 := by decide
example : demo_factorial (-1) = -1 := by decide

/-- A well-formed embedded blob: at least the 24 nonce bytes and 16 tag
bytes long, and carrying a NUL-free text payload (its decryption contains
no zero byte), as produced by the build-time encryption of a JSON text. -/
def WellFormedBlob (material blob : List Nat) : Prop :=
  40 ≤ blob.length ∧ ∀ b ∈ decryptPayload material blob, b ≠ 0

instance (material blob : List Nat) : Decidable (WellFormedBlob material blob) := by
  unfold WellFormedBlob; infer_instance

/-- Modelled from the spec: the record-count heuristic as a left-to-right
fold carrying the pair (slashes, result). -/
def specEstimateCount (text : List Nat) : Nat :=
  (text.foldl
    (fun st ch =>
      let slashes := if ch = 47 then st.1 + 1 else st.1
      if ch = 34 ∧ 0 < slashes then (0, st.2 + 1) else (slashes, st.2))
    ((0, 0) : Nat × Nat)).2

/-! ### Correspondence of the array-based block function with the
specification-side description -/

theorem qround_specQRa (s : SpecState) :
    qround s.toList 0 4 8 12 = (specQRa s).toList := by
  obtain ⟨y0, y1, y2, y3, y4, y5, y6, y7, y8, y9, y10, y11, y12, y13, y14, y15⟩ := s
  rfl

theorem qround_specQRb (s : SpecState) :
    qround s.toList 1 5 9 13 = (specQRb s).toList := by
  obtain ⟨y0, y1, y2, y3, y4, y5, y6, y7, y8, y9, y10, y11, y12, y13, y14, y15⟩ := s
  rfl

theorem qround_specQRc (s : SpecState) :
    qround s.toList 2 6 10 14 = (specQRc s).toList := by
  obtain ⟨y0, y1, y2, y3, y4, y5, y6, y7, y8, y9, y10, y11, y12, y13, y14, y15⟩ := s
  rfl

theorem qround_specQRd (s : SpecState) :
    qround s.toList 3 7 11 15 = (specQRd s).toList := by
  obtain ⟨y0, y1, y2, y3, y4, y5, y6, y7, y8, y9, y10, y11, y12, y13, y14, y15⟩ := s
  rfl

theorem qround_specQRe (s : SpecState) :
    qround s.toList 0 5 10 15 = (specQRe s).toList := by
  obtain ⟨y0, y1, y2, y3, y4, y5, y6, y7, y8, y9, y10, y11, y12, y13, y14, y15⟩ := s
  rfl

theorem qround_specQRf (s : SpecState) :
    qround s.toList 1 6 11 12 = (specQRf s).toList := by
  obtain ⟨y0, y1, y2, y3, y4, y5, y6, y7, y8, y9, y10, y11, y12, y13, y14, y15⟩ := s
  rfl

theorem qround_specQRg (s : SpecState) :
    qround s.toList 2 7 8 13 = (specQRg s).toList := by
  obtain ⟨y0, y1, y2, y3, y4, y5, y6, y7, y8, y9, y10, y11, y12, y13, y14, y15⟩ := s
  rfl

theorem qround_specQRh (s : SpecState) :
    qround s.toList 3 4 9 14 = (specQRh s).toList := by
  obtain ⟨y0, y1, y2, y3, y4, y5, y6, y7, y8, y9, y10, y11, y12, y13, y14, y15⟩ := s
  rfl

theorem doubleRound_spec (s : SpecState) :
    doubleRound s.toList = (specDoubleRound s).toList := by
  unfold doubleRound
  rw [qround_specQRa, qround_specQRb, qround_specQRc, qround_specQRd,
    qround_specQRe, qround_specQRf, qround_specQRg, qround_specQRh]
  rfl

theorem iterate_doubleRound_spec (n : Nat) (s : SpecState) :
    Nat.iterate doubleRound n s.toList = (Nat.iterate specDoubleRound n s).toList := by
  induction n generalizing s with
  | zero => rfl
  | succ n ih =>
    rw [Function.iterate_succ_apply, Function.iterate_succ_apply, doubleRound_spec, ih]

theorem zipWith_specAddState (a b : SpecState) :
    List.zipWith add32 a.toList b.toList = (specAddState a b).toList := by
  obtain ⟨y0, y1, y2, y3, y4, y5, y6, y7, y8, y9, y10, y11, y12, y13, y14, y15⟩ := a
  obtain ⟨z0, z1, z2, z3, z4, z5, z6, z7, z8, z9, z10, z11, z12, z13, z14, z15⟩ := b
  rfl

/-! ### Length bookkeeping for the decryption loop -/

theorem bytesToWords_length : ∀ l : List Nat, (bytesToWords l).length = l.length / 4
  | [] => by simp [bytesToWords]
  | [_] => by simp [bytesToWords]
  | [_, _] => by simp [bytesToWords]
  | [_, _, _] => by simp [bytesToWords]
  | _ :: _ :: _ :: _ :: rest => by
    simp [bytesToWords, bytesToWords_length rest]
    omega

theorem wordsToBytes_length : ∀ ws : List Nat, (wordsToBytes ws).length = 4 * ws.length
  | [] => rfl
  | w :: rest => by
    simp [wordsToBytes, wordToBytes, wordsToBytes_length rest]
    omega

theorem qround_length (s : List Nat) (i1 i2 i3 i4 : Nat) :
    (qround s i1 i2 i3 i4).length = s.length := by
  simp [qround]

theorem doubleRound_length (s : List Nat) : (doubleRound s).length = s.length := by
  simp [doubleRound, qround_length]

theorem iterate_doubleRound_length (n : Nat) (s : List Nat) :
    (Nat.iterate doubleRound n s).length = s.length := by
  induction n generalizing s with
  | zero => rfl
  | succ n ih => rw [Function.iterate_succ_apply, ih, doubleRound_length]

theorem chacha20_block_length (s : List Nat) : (chacha20_block s).length = s.length := by
  simp only [chacha20_block, List.length_zipWith, iterate_doubleRound_length, Nat.min_self]

theorem chachaInit_length (key nonce : List Nat) (c : Nat)
    (hk : key.length = 32) (hn : nonce.length = 8) :
    (chachaInit key nonce c).length = 16 := by
  simp [chachaInit, bytesToWords_length, hk, hn]

theorem keystreamBytes_length (key nonce : List Nat) (c : Nat)
    (hk : key.length = 32) (hn : nonce.length = 8) :
    (keystreamBytes key nonce c).length = 64 := by
  simp [keystreamBytes, wordsToBytes_length, chacha20_block_length,
    chachaInit_length key nonce c hk hn]

theorem chachaGo_nil (key nonce : List Nat) (fuel c : Nat) :
    chachaGo key nonce fuel c [] = [] := by
  cases fuel <;> simp [chachaGo]

theorem chachaGo_cons (key nonce : List Nat) (fuel c : Nat) (p : List Nat) (h : p ≠ []) :
    chachaGo key nonce (fuel + 1) c p =
      List.zipWith xor32 (p.take 64) (keystreamBytes key nonce (c + 1)) ++
        chachaGo key nonce fuel (c + 1) (p.drop 64) := by
  simp [chachaGo, h]

theorem chachaGo_length (key nonce : List Nat)
    (hk : key.length = 32) (hn : nonce.length = 8) :
    ∀ fuel c p, p.length ≤ fuel → (chachaGo key nonce fuel c p).length = p.length := by
  intro fuel
  induction fuel with
  | zero =>
    intro c p hp
    rw [List.length_eq_zero.mp (Nat.le_zero.mp hp)]
    rfl
  | succ fuel ih =>
    intro c p hp
    by_cases h : p = []
    · rw [h, chachaGo_nil]
    · rw [chachaGo_cons key nonce fuel c p h]
      have hpos := List.length_pos.mpr h
      have hd : (p.drop 64).length ≤ fuel := by
        simp only [List.length_drop]
        omega
      simp only [List.length_append, List.length_zipWith, List.length_take,
        keystreamBytes_length key nonce (c + 1) hk hn, ih (c + 1) (p.drop 64) hd,
        List.length_drop]
      omega

theorem chachaGo_fuel (key nonce : List Nat) :
    ∀ f1 f2 c p, p.length ≤ f1 → p.length ≤ f2 →
      chachaGo key nonce f1 c p = chachaGo key nonce f2 c p := by
  intro f1
  induction f1 with
  | zero =>
    intro f2 c p hp _
    rw [List.length_eq_zero.mp (Nat.le_zero.mp hp), chachaGo_nil, chachaGo_nil]
  | succ f1 ih =>
    intro f2 c p hp1 hp2
    by_cases h : p = []
    · rw [h, chachaGo_nil, chachaGo_nil]
    · have hpos := List.length_pos.mpr h
      cases f2 with
      | zero => omega
      | succ f2 =>
        rw [chachaGo_cons key nonce f1 c p h, chachaGo_cons key nonce f2 c p h,
          ih f2 (c + 1) (p.drop 64) (by simp only [List.length_drop]; omega)
            (by simp only [List.length_drop]; omega)]

theorem zipWith_xor32_cancel : ∀ l ks : List Nat, l.length ≤ ks.length →
    List.zipWith xor32 (List.zipWith xor32 l ks) ks = l := by
  intro l
  induction l with
  | nil => intro ks _; simp
  | cons a l ih =>
    intro ks hl
    cases ks with
    | nil => simp at hl
    | cons k ks =>
      simp only [List.zipWith_cons_cons, List.cons.injEq]
      refine ⟨?_, ih ks (by simpa using hl)⟩
      simp [xor32, Nat.xor_assoc]

theorem chachaGo_take (key nonce : List Nat)
    (hk : key.length = 32) (hn : nonce.length = 8) (fuel c : Nat) (p : List Nat)
    (hp : p.length ≤ fuel) :
    (chachaGo key nonce fuel c p).take 64 =
      List.zipWith xor32 (p.take 64) (keystreamBytes key nonce (c + 1)) := by
  cases fuel with
  | zero =>
    rw [List.length_eq_zero.mp (Nat.le_zero.mp hp)]
    simp [chachaGo_nil]
  | succ fuel =>
    by_cases h : p = []
    · rw [h, chachaGo_nil]
      simp
    · rw [chachaGo_cons key nonce fuel c p h, List.take_append_eq_append_take]
      have hpos := List.length_pos.mpr h
      have hA : (List.zipWith xor32 (p.take 64) (keystreamBytes key nonce (c + 1))).length =
          min p.length 64 := by
        simp [List.length_zipWith, keystreamBytes_length key nonce (c + 1) hk hn]
        omega
      rcases Nat.lt_or_ge p.length 64 with hlt | hge
      · have hB : p.drop 64 = [] := List.drop_eq_nil_of_le (by omega)
        rw [hB, chachaGo_nil, List.take_of_length_le (by omega), List.take_nil,
          List.append_nil]
      · rw [List.take_of_length_le (by omega), hA,
          show 64 - min p.length 64 = 0 from by omega, List.take_zero, List.append_nil]

theorem chachaGo_drop (key nonce : List Nat)
    (hk : key.length = 32) (hn : nonce.length = 8) (fuel c : Nat) (p : List Nat) :
    (chachaGo key nonce (fuel + 1) c p).drop 64 =
      chachaGo key nonce fuel (c + 1) (p.drop 64) := by
  by_cases h : p = []
  · rw [h, chachaGo_nil, List.drop_nil, chachaGo_nil]
  · rw [chachaGo_cons key nonce fuel c p h, List.drop_append_eq_append_drop]
    have hpos := List.length_pos.mpr h
    have hA : (List.zipWith xor32 (p.take 64) (keystreamBytes key nonce (c + 1))).length =
        min p.length 64 := by
      simp [List.length_zipWith, keystreamBytes_length key nonce (c + 1) hk hn]
      omega
    rcases Nat.lt_or_ge p.length 64 with hlt | hge
    · have hB : p.drop 64 = [] := List.drop_eq_nil_of_le (by omega)
      rw [hB, chachaGo_nil, List.drop_eq_nil_of_le (by omega), List.drop_nil]
      simp
    · rw [List.drop_eq_nil_of_le (by omega), hA,
        show 64 - min p.length 64 = 0 from by omega, List.drop_zero, List.nil_append]

theorem chachaGo_involution (key nonce : List Nat)
    (hk : key.length = 32) (hn : nonce.length = 8) :
    ∀ fuel c p, p.length ≤ fuel →
      chachaGo key nonce fuel c (chachaGo key nonce fuel c p) = p := by
  intro fuel
  induction fuel with
  | zero =>
    intro c p hp
    rw [List.length_eq_zero.mp (Nat.le_zero.mp hp), chachaGo_nil, chachaGo_nil]
  | succ fuel ih =>
    intro c p hp
    by_cases h : p = []
    · rw [h, chachaGo_nil, chachaGo_nil]
    · have hpos := List.length_pos.mpr h
      have hlen : (chachaGo key nonce (fuel + 1) c p).length = p.length :=
        chachaGo_length key nonce hk hn (fuel + 1) c p hp
      have hne : chachaGo key nonce (fuel + 1) c p ≠ [] := by
        intro heq
        rw [heq] at hlen
        simp only [List.length_nil] at hlen
        omega
      rw [chachaGo_cons key nonce fuel c (chachaGo key nonce (fuel + 1) c p) hne,
        chachaGo_take key nonce hk hn (fuel + 1) c p hp,
        chachaGo_drop key nonce hk hn fuel c p,
        zipWith_xor32_cancel _ _ (by
          simp only [List.length_take, keystreamBytes_length key nonce (c + 1) hk hn]
          omega),
        ih (c + 1) (p.drop 64) (by simp only [List.length_drop]; omega),
        List.take_append_drop]

theorem chachaGo_chunk (key nonce : List Nat)
    (hk : key.length = 32) (hn : nonce.length = 8) :
    ∀ i fuel c p, p.length ≤ fuel → 64 * i < p.length →
      ((chachaGo key nonce fuel c p).drop (64 * i)).take 64 =
        List.zipWith xor32 ((p.drop (64 * i)).take 64)
          (keystreamBytes key nonce (c + i + 1)) := by
  intro i
  induction i with
  | zero =>
    intro fuel c p hp _
    simpa using chachaGo_take key nonce hk hn fuel c p hp
  | succ i ih =>
    intro fuel c p hp hi
    have hbig : 64 < p.length := by omega
    cases fuel with
    | zero => omega
    | succ fuel =>
      have h1 : 64 * (i + 1) = 64 + 64 * i := by ring
      rw [h1, ← List.drop_drop, ← List.drop_drop,
        chachaGo_drop key nonce hk hn fuel c p,
        ih fuel (c + 1) (p.drop 64) (by simp only [List.length_drop]; omega)
          (by simp only [List.length_drop]; omega),
        show c + 1 + i + 1 = c + (i + 1) + 1 from by ring]

/-! ### The cached payload as a C string -/

theorem deobfuscateKey_length (material : List Nat) :
    (deobfuscateKey material).length = 32 := by
  simp [deobfuscateKey]

theorem takeWhile_append_zero (l : List Nat) :
    (l ++ [0]).takeWhile (fun b => b != 0) = l.takeWhile (fun b => b != 0) := by
  induction l with
  | nil => simp
  | cons a l ih =>
    by_cases ha : a = 0
    · subst ha
      simp [List.takeWhile]
    · simp only [List.cons_append, List.takeWhile_cons]
      rw [if_pos (by simpa using ha), if_pos (by simpa using ha), ih]

theorem takeWhile_eq_self_of_ne_zero (l : List Nat) (h : ∀ b ∈ l, b ≠ 0) :
    l.takeWhile (fun b => b != 0) = l := by
  induction l with
  | nil => rfl
  | cons a l ih =>
    rw [List.takeWhile_cons, if_pos (by simpa using h a (List.mem_cons_self a l)),
      ih fun b hb => h b (List.mem_cons_of_mem a hb)]

theorem takeWhile_length_le_of_getD_zero :
    ∀ l : List Nat, ∀ j, j < l.length → l.getD j 0 = 0 →
      (l.takeWhile (fun b => b != 0)).length ≤ j := by
  intro l
  induction l with
  | nil => intro j hj _; simp at hj
  | cons a l ih =>
    intro j hj hz
    cases j with
    | zero =>
      simp only [List.getD_cons_zero] at hz
      subst hz
      simp [List.takeWhile]
    | succ j =>
      by_cases ha : a = 0
      · subst ha
        simp [List.takeWhile]
      · rw [List.takeWhile_cons, if_pos (by simpa using ha)]
        simp only [List.length_cons, Nat.succ_le_succ_iff]
        exact ih j (by simpa using hj) (by simpa using hz)

theorem decryptPayload_length (material blob : List Nat) (hb : 40 ≤ blob.length) :
    (decryptPayload material blob).length = (ciphertextOf blob).length := by
  unfold decryptPayload chacha20_decrypt
  exact chachaGo_length (deobfuscateKey material) (blob.take 8)
    (deobfuscateKey_length material) (by simp [List.length_take]; omega)
    (ciphertextOf blob).length 0 (ciphertextOf blob) (le_refl _)

theorem ciphertextOf_length (blob : List Nat) :
    (ciphertextOf blob).length = blob.length - 24 - 16 := by
  simp only [ciphertextOf, List.length_take, List.length_drop]
  omega

theorem relayCountLoop_foldl :
    ∀ (l : List Nat) (s k : Nat),
      relayCountLoop l s k =
        (l.foldl
          (fun st ch =>
            let slashes := if ch = 47 then st.1 + 1 else st.1
            if ch = 34 ∧ 0 < slashes then (0, st.2 + 1) else (slashes, st.2))
          (s, k)).2 := by
  intro l
  induction l with
  | nil => intro s k; rfl
  | cons ch rest ih =>
    intro s k
    simp only [relayCountLoop, List.foldl_cons]
    by_cases h : ch = 34 ∧ 0 < (if ch = 47 then s + 1 else s)
    · rw [if_pos h, if_pos h, ih]
    · rw [if_neg h, if_neg h, ih]

theorem runCalls_succ (material blob : List Nat) (n : Nat) :
    runCalls material blob (n + 1) =
      ((get_edge_relays material blob (runCalls material blob n).1).2,
        (runCalls material blob n).2 ++
          [(get_edge_relays material blob (runCalls material blob n).1).1]) := rfl

theorem runCalls_of_ne (material blob : List Nat)
    (hne : get_edge_relays_payload material blob ≠ []) :
    ∀ n, 1 ≤ n →
      (runCalls material blob n).1 = ⟨get_edge_relays_payload material blob, 1⟩ ∧
      (runCalls material blob n).2 =
        List.replicate n (get_edge_relays_payload material blob) := by
  intro n
  induction n with
  | zero => intro h; omega
  | succ n ih =>
    intro _
    cases n with
    | zero =>
      rw [runCalls_succ]
      constructor
      · simp [runCalls, get_edge_relays, initState]
      · simp [runCalls, get_edge_relays, initState, List.replicate]
    | succ m =>
      have ihm := ih (by omega)
      rw [runCalls_succ, ihm.1, ihm.2, List.replicate_succ']
      constructor
      · simp [get_edge_relays, hne]
      · simp [get_edge_relays, hne, List.replicate_succ', List.append_assoc]

theorem runCalls_of_empty (material blob : List Nat)
    (hempty : get_edge_relays_payload material blob = []) :
    ∀ n, (runCalls material blob n).1.cached = [] ∧
      (runCalls material blob n).1.decryptCalls = n := by
  intro n
  induction n with
  | zero => exact ⟨rfl, rfl⟩
  | succ n ih =>
    rw [runCalls_succ]
    constructor
    · simp [get_edge_relays, ih.1, hempty]
    · simp [get_edge_relays, ih.1, ih.2, hempty]

set_option maxRecDepth 100000

/-- C5: for every 16-word input state, `chacha20_block` equals the
reference definition: 10 double rounds, each made of 4 column
quarter-rounds then 4 diagonal quarter-rounds (the standard
a+=b; d^=a; d=rotl(d,16); c+=d; b^=c; b=rotl(b,12); a+=b; d^=a;
d=rotl(d,8); c+=d; b^=c; b=rotl(b,7) sequence, wrapping modulo 2^32),
followed by word-wise wrapping addition of the input state. -/
theorem claim_C5_block_matches_reference (s : SpecState) :
    chacha20_block s.toList = (specChaChaBlock s).toList := by
  unfold chacha20_block specChaChaBlock
  rw [iterate_doubleRound_spec, zipWith_specAddState]

/-- C6: for every 32-byte key, 8-byte nonce and byte sequence `p`,
running the decryption routine twice returns `p` — XOR with the
keystream is self-inverse. -/
theorem claim_C6_decrypt_involutive (key nonce p : List Nat)
    (hk : key.length = 32) (hn : nonce.length = 8) :
    chacha20_decrypt key nonce (chacha20_decrypt key nonce p) = p := by
  unfold chacha20_decrypt
  rw [chachaGo_length key nonce hk hn p.length 0 p (le_refl _)]
  exact chachaGo_involution key nonce hk hn p.length 0 p (le_refl _)

theorem claim_C6_decrypt_involutive_witness :
    (List.replicate 32 0 : List Nat).length = 32 ∧
    (List.replicate 8 0 : List Nat).length = 8 ∧
    chacha20_decrypt (List.replicate 32 0) (List.replicate 8 0)
      (chacha20_decrypt (List.replicate 32 0) (List.replicate 8 0) [5]) = [5] :=
  ⟨by decide, by decide,
    claim_C6_decrypt_involutive (List.replicate 32 0) (List.replicate 8 0) [5]
      (by decide) (by decide)⟩

/-- C2: the keystream block XORed into the i-th 64-byte chunk (0-based)
of a decrypted message is generated with block-counter word `i + 1`:
the counter is incremented before each keystream generation, so the
first chunk uses counter 1, not 0. -/
theorem claim_C2_counter_preincrement (key nonce p : List Nat) (i : Nat)
    (hk : key.length = 32) (hn : nonce.length = 8) (hi : 64 * i < p.length) :
    ((chacha20_decrypt key nonce p).drop (64 * i)).take 64 =
      List.zipWith xor32 ((p.drop (64 * i)).take 64)
        (keystreamBytes key nonce (i + 1)) := by
  unfold chacha20_decrypt
  have h := chachaGo_chunk key nonce hk hn i p.length 0 p (le_refl _) hi
  simpa using h

theorem claim_C2_counter_preincrement_witness :
    (List.replicate 32 0 : List Nat).length = 32 ∧
    (List.replicate 8 0 : List Nat).length = 8 ∧
    64 * 0 < ([5] : List Nat).length ∧
    ((chacha20_decrypt (List.replicate 32 0) (List.replicate 8 0) [5]).drop (64 * 0)).take 64 =
      List.zipWith xor32 ((([5] : List Nat).drop (64 * 0)).take 64)
        (keystreamBytes (List.replicate 32 0) (List.replicate 8 0) (0 + 1)) :=
  ⟨by decide, by decide, by decide,
    claim_C2_counter_preincrement (List.replicate 32 0) (List.replicate 8 0) [5] 0
      (by decide) (by decide) (by decide)⟩

/-- C7: the deobfuscated key satisfies
`key[i] = material[i] xor material[32 + i]` for every `i < 32`. -/
theorem claim_C7_key_deobfuscation (material : List Nat) (i : Nat) (hi : i < 32) :
    (deobfuscateKey material).getD i 0 =
      material.getD i 0 ^^^ material.getD (32 + i) 0 := by
  have hlen : i < (deobfuscateKey material).length := by
    rw [deobfuscateKey_length]
    exact hi
  rw [List.getD_eq_getElem _ _ hlen]
  simp [deobfuscateKey]

theorem claim_C7_key_deobfuscation_witness :
    (0 : Nat) < 32 ∧
    (deobfuscateKey (List.range 64)).getD 0 0 =
      (List.range 64).getD 0 0 ^^^ (List.range 64).getD 32 0 :=
  ⟨by decide, claim_C7_key_deobfuscation (List.range 64) 0 (by decide)⟩

/-- C9: `get_relay_count` computes the left-to-right scan described in
the spec (slashes incremented on each '/'; a '"' with slashes > 0 bumps
the count and resets slashes); its result is a `Nat`, hence always ≥ 0.
In particular it returns 2 on `"a/b" "c" "d/e/f"` and 0 on `""`. -/
theorem claim_C9_relay_count :
    (∀ text : List Nat, get_relay_count text = specEstimateCount text) ∧
    get_relay_count
      [34, 97, 47, 98, 34, 32, 34, 99, 34, 32, 34, 100, 47, 101, 47, 102, 34] = 2 ∧
    get_relay_count [34, 34] = 0 := by
  refine ⟨fun text => ?_, by decide, by decide⟩
  unfold get_relay_count specEstimateCount
  exact relayCountLoop_foldl text 0 0

/-- C10: `demo_factorial` returns the sentinel -1 for negative input,
1 for inputs 0 and 1, and the iterative product `2 * 3 * ... * n` on a
64-bit accumulator otherwise (exact up to n = 20, where no wraparound
occurs); in particular `factorial(-1) = -1`, `factorial(0) = 1`,
`factorial(5) = 120`. -/
theorem claim_C10_factorial (n : Int) :
    (n < 0 → demo_factorial n = -1) ∧
    ((n = 0 ∨ n = 1) → demo_factorial n = 1) ∧
    (∀ k : Nat, k < 21 → demo_factorial (k : Int) = Nat.factorial k) ∧
    demo_factorial (-1) = -1 ∧ demo_factorial 0 = 1 ∧ demo_factorial 5 = 120 := by
  refine ⟨?_, ?_, by decide, by decide, by decide, by decide⟩
  · intro hn
    unfold demo_factorial
    rw [if_pos hn]
  · rintro (rfl | rfl) <;> decide

theorem claim_C10_factorial_witness :
    demo_factorial (-7) = -1 ∧ demo_factorial 1 = 1 :=
  ⟨(claim_C10_factorial (-7)).1 (by decide),
    (claim_C10_factorial 1).2.1 (Or.inr rfl)⟩

/-- C1 is false as stated: with an embedded blob whose decrypted payload
is empty (here: a 40-byte blob with zero ciphertext bytes), the
"cache non-empty" check never sees a populated cache, so two calls run
the deobfuscate-decrypt pipeline twice, not once. -/
theorem claim_C1_counterexample :
    (runCalls (List.replicate 64 0) (List.replicate 40 0) 2).1.decryptCalls = 2 ∧
    ¬(runCalls (List.replicate 64 0) (List.replicate 40 0) 2).1.decryptCalls = 1 := by
  decide

/-- C1 (amended): provided the decrypted payload is non-empty, every
sequence of N ≥ 1 calls to `get_edge_relays` runs the pipeline exactly
once — on the first call, which stores the text — and all N calls
return the identical cached text; when the decrypted payload is empty,
the cache never populates and the pipeline runs on every call. -/
theorem claim_C1_cache_single_run (material blob : List Nat) (n : Nat) (hn : 1 ≤ n) :
    (get_edge_relays_payload material blob ≠ [] →
      (runCalls material blob n).1.decryptCalls = 1 ∧
      (runCalls material blob n).2 =
        List.replicate n (get_edge_relays_payload material blob)) ∧
    (get_edge_relays_payload material blob = [] →
      (runCalls material blob n).1.decryptCalls = n) := by
  constructor
  · intro hne
    obtain ⟨h1, h2⟩ := runCalls_of_ne material blob hne n hn
    exact ⟨by rw [h1], h2⟩
  · intro hempty
    exact (runCalls_of_empty material blob hempty n).2

theorem claim_C1_cache_single_run_witness :
    1 ≤ 2 ∧
    ((runCalls (List.replicate 64 0)
        (List.replicate 24 0 ++ [5] ++ List.replicate 16 0) 2).1.decryptCalls = 1 ∧
      (runCalls (List.replicate 64 0)
          (List.replicate 24 0 ++ [5] ++ List.replicate 16 0) 2).2 =
        List.replicate 2 (get_edge_relays_payload (List.replicate 64 0)
          (List.replicate 24 0 ++ [5] ++ List.replicate 16 0))) :=
  ⟨by decide,
    (claim_C1_cache_single_run (List.replicate 64 0)
      (List.replicate 24 0 ++ [5] ++ List.replicate 16 0) 2 (by decide)).1
      (by decide)⟩

/-- C3: for every well-formed embedded blob, the consumed ciphertext has
length `len(blob) - 24 - 16`, and the cached payload returned by
`get_edge_relays` has exactly that length (the appended NUL marker is
not counted). -/
theorem claim_C3_payload_length (material blob : List Nat)
    (h : WellFormedBlob material blob) :
    (ciphertextOf blob).length = blob.length - 24 - 16 ∧
    (get_edge_relays_payload material blob).length = (ciphertextOf blob).length := by
  obtain ⟨hb, hz⟩ := h
  refine ⟨ciphertextOf_length blob, ?_⟩
  unfold get_edge_relays_payload cStringBytes
  rw [takeWhile_append_zero, takeWhile_eq_self_of_ne_zero _ hz,
    decryptPayload_length material blob hb]

theorem claim_C3_payload_length_witness :
    WellFormedBlob (List.replicate 64 0) (List.replicate 24 0 ++ [5] ++ List.replicate 16 0) ∧
    ((ciphertextOf (List.replicate 24 0 ++ [5] ++ List.replicate 16 0)).length =
        (List.replicate 24 0 ++ [5] ++ List.replicate 16 0).length - 24 - 16 ∧
      (get_edge_relays_payload (List.replicate 64 0)
          (List.replicate 24 0 ++ [5] ++ List.replicate 16 0)).length =
        (ciphertextOf (List.replicate 24 0 ++ [5] ++ List.replicate 16 0)).length) :=
  ⟨by decide,
    claim_C3_payload_length (List.replicate 64 0)
      (List.replicate 24 0 ++ [5] ++ List.replicate 16 0) (by decide)⟩

/-- C4: the cached text equals the prefix of the decrypted bytes up to
(and excluding) the first zero byte; when the decryption output has a
zero byte at position j, the cached payload has length at most j,
strictly shorter than the ciphertext, and the bytes past the zero are
silently dropped. -/
theorem claim_C4_nul_truncation (material blob : List Nat) (j : Nat)
    (hj : j < (decryptPayload material blob).length)
    (hz : (decryptPayload material blob).getD j 0 = 0) :
    get_edge_relays_payload material blob =
      (decryptPayload material blob).takeWhile (fun b => b != 0) ∧
    (get_edge_relays_payload material blob).length ≤ j ∧
    (get_edge_relays_payload material blob).length < (ciphertextOf blob).length := by
  have heq : get_edge_relays_payload material blob =
      (decryptPayload material blob).takeWhile (fun b => b != 0) := by
    unfold get_edge_relays_payload cStringBytes
    exact takeWhile_append_zero _
  have hle : (get_edge_relays_payload material blob).length ≤ j := by
    rw [heq]
    exact takeWhile_length_le_of_getD_zero _ j hj hz
  have hctne : ciphertextOf blob ≠ [] := by
    intro hc
    have hdec : decryptPayload material blob = [] := by
      unfold decryptPayload chacha20_decrypt
      rw [hc]
      exact chachaGo_nil _ _ _ _
    rw [hdec] at hj
    simp at hj
  have hb : 40 ≤ blob.length := by
    by_contra hlt
    apply hctne
    unfold ciphertextOf
    rw [show blob.length - 40 = 0 from by omega, List.take_zero]
  have hct : (decryptPayload material blob).length = (ciphertextOf blob).length :=
    decryptPayload_length material blob hb
  exact ⟨heq, hle, by omega⟩

theorem claim_C4_nul_truncation_witness :
    0 < (decryptPayload (List.replicate 64 0)
        (List.replicate 24 0 ++ [159] ++ List.replicate 16 0)).length ∧
    (decryptPayload (List.replicate 64 0)
        (List.replicate 24 0 ++ [159] ++ List.replicate 16 0)).getD 0 0 = 0 ∧
    ((get_edge_relays_payload (List.replicate 64 0)
        (List.replicate 24 0 ++ [159] ++ List.replicate 16 0)).length ≤ 0 ∧
      (get_edge_relays_payload (List.replicate 64 0)
          (List.replicate 24 0 ++ [159] ++ List.replicate 16 0)).length <
        (ciphertextOf (List.replicate 24 0 ++ [159] ++ List.replicate 16 0)).length) :=
  ⟨by decide, by decide,
    (claim_C4_nul_truncation (List.replicate 64 0)
      (List.replicate 24 0 ++ [159] ++ List.replicate 16 0) 0
      (by decide) (by decide)).2⟩

/-- C8: bytes 8..23 of the 24-byte nonce field and the 16 trailing tag
bytes do not influence decryption — two equal-length blobs agreeing on
the first 8 bytes and on the ciphertext region decrypt to identical
byte sequences and yield the same cached payload. -/
theorem claim_C8_nonce_tail_unused (material blob1 blob2 : List Nat)
    (hlen : blob1.length = blob2.length)
    (hfront : ∀ i, i < 8 → blob1.getD i 0 = blob2.getD i 0)
    (hct : ∀ i, i < blob1.length - 40 →
      blob1.getD (24 + i) 0 = blob2.getD (24 + i) 0) :
    decryptPayload material blob1 = decryptPayload material blob2 ∧
    get_edge_relays_payload material blob1 = get_edge_relays_payload material blob2 := by
  have htake : blob1.take 8 = blob2.take 8 := by
    apply List.ext_getElem
    · simp [List.length_take, hlen]
    · intro n h1 h2
      rw [List.getElem_take, List.getElem_take]
      have hn8 : n < 8 := by
        simp only [List.length_take] at h1
        omega
      have hb1 : n < blob1.length := by
        simp only [List.length_take] at h1
        omega
      have hb2 : n < blob2.length := by omega
      rw [← List.getD_eq_getElem blob1 0 hb1, ← List.getD_eq_getElem blob2 0 hb2]
      exact hfront n hn8
  have hcteq : ciphertextOf blob1 = ciphertextOf blob2 := by
    apply List.ext_getElem
    · simp [ciphertextOf, List.length_take, List.length_drop, hlen]
    · intro n h1 h2
      unfold ciphertextOf at h1 h2 ⊢
      have hn : n < blob1.length - 40 := by
        simp only [List.length_take, List.length_drop] at h1
        omega
      rw [List.getElem_take, List.getElem_drop, List.getElem_take, List.getElem_drop]
      have hb1 : 24 + n < blob1.length := by omega
      have hb2 : 24 + n < blob2.length := by omega
      rw [← List.getD_eq_getElem blob1 0 hb1, ← List.getD_eq_getElem blob2 0 hb2]
      exact hct n hn
  have hdec : decryptPayload material blob1 = decryptPayload material blob2 := by
    unfold decryptPayload
    rw [htake, hcteq]
  refine ⟨hdec, ?_⟩
  unfold get_edge_relays_payload
  rw [hdec]

theorem claim_C8_nonce_tail_unused_witness :
    (List.replicate 24 0 ++ [5] ++ List.replicate 16 0 : List Nat).length =
      (List.replicate 8 0 ++ List.replicate 16 1 ++ [5] ++ List.replicate 16 2 : List Nat).length ∧
    (∀ i, i < 8 →
      (List.replicate 24 0 ++ [5] ++ List.replicate 16 0 : List Nat).getD i 0 =
        (List.replicate 8 0 ++ List.replicate 16 1 ++ [5] ++ List.replicate 16 2 : List Nat).getD i 0) ∧
    (∀ i, i < (List.replicate 24 0 ++ [5] ++ List.replicate 16 0 : List Nat).length - 40 →
      (List.replicate 24 0 ++ [5] ++ List.replicate 16 0 : List Nat).getD (24 + i) 0 =
        (List.replicate 8 0 ++ List.replicate 16 1 ++ [5] ++ List.replicate 16 2 : List Nat).getD (24 + i) 0) ∧
    (decryptPayload (List.replicate 64 0) (List.replicate 24 0 ++ [5] ++ List.replicate 16 0) =
        decryptPayload (List.replicate 64 0)
          (List.replicate 8 0 ++ List.replicate 16 1 ++ [5] ++ List.replicate 16 2) ∧
      get_edge_relays_payload (List.replicate 64 0)
          (List.replicate 24 0 ++ [5] ++ List.replicate 16 0) =
        get_edge_relays_payload (List.replicate 64 0)
          (List.replicate 8 0 ++ List.replicate 16 1 ++ [5] ++ List.replicate 16 2)) :=
  ⟨by decide, by decide, by decide,
    claim_C8_nonce_tail_unused (List.replicate 64 0)
      (List.replicate 24 0 ++ [5] ++ List.replicate 16 0)
      (List.replicate 8 0 ++ List.replicate 16 1 ++ [5] ++ List.replicate 16 2)
      (by decide) (by decide) (by decide)⟩
